import Mathlib

/-!
Shallow embedding of functions.py from a Markov chain Monte Carlo
experiments repository: Gaussian kernel construction, subsampling,
log-density functions and two Metropolis-Hastings samplers (grw and pcn),
together with theorems checking the specification claims.

Numerical conventions: Python floats are modelled as real numbers. The
numpy global random generator is modelled as an explicit Nat state
threaded through subsample, and as an explicit stream of draws supplied
to the samplers; iteration i consumes its standard-normal vector and its
uniform draw from position i of the stream, in that order. Python true
division raising ZeroDivisionError on a zero divisor is modelled with an
Option result, and a Python function returning the value None is
modelled as returning Option.none.
-/

open Matrix

/-- Euclidean distance matrix of a coordinate set, modelling
scipy.spatial.distance_matrix applied to the coordinate set against
itself: entry i j is the Euclidean distance between points i and j. -/
noncomputable def distanceMatrix {m d : ℕ} (x : Fin m → Fin d → ℝ) :
    Matrix (Fin m) (Fin m) ℝ :=
  Matrix.of fun i j => Real.sqrt (∑ k, (x i k - x j k) ^ 2)

/-- GaussianKernel from functions.py lines 9-12: computes
D = distance_matrix x x and returns exp applied entrywise to
minus D squared over 2 l squared. -/
noncomputable def GaussianKernel {m d : ℕ} (x : Fin m → Fin d → ℝ) (l : ℝ) :
    Matrix (Fin m) (Fin m) ℝ :=
  Matrix.of fun i j => Real.exp (-(distanceMatrix x i j ^ 2) / (2 * l ^ 2))

/-- Model of the numpy global random generator state transition. The
generator internals are external library code; the model is a
deterministic pseudo-random function of an abstract Nat state. -/
def lcg (s : ℕ) : ℕ :=
  (1103515245 * s + 12345) % 2 ^ 31

/-- Model of np.random.seed: resets the generator state from the seed. -/
def seedRng (s : ℤ) : ℕ :=
  s.natAbs

/-- Model of np.random.choice of size indices below N without
replacement, as a deterministic function of the generator state,
returning the drawn indices and the new state. The exact distribution is
external library behaviour; only determinism in the state matters for
the claims. -/
def npChoice (N : ℕ) : ℕ → ℕ → List ℕ × ℕ
  | 0, rng => ([], rng)
  | size + 1, rng =>
    let r := lcg rng
    let rest := npChoice N size r
    ((r % N) :: rest.1, rest.2)

/-- subsample from functions.py lines 15-20. The Python assert on the
subsampling factor raising AssertionError is modelled with none. The
line if seed: np.random.seed(seed) reseeds exactly when seed is truthy,
so a seed equal to 0 is ignored exactly like an absent seed. -/
def subsample (N factor : ℕ) (seed : Option ℤ) (rng : ℕ) :
    Option (List ℕ × ℕ) :=
  if 1 ≤ factor then
    let N_sub := (N + factor - 1) / factor
    let rng1 :=
      match seed with
      | some s => if s ≠ 0 then seedRng s else rng
      | none => rng
    some (npChoice N N_sub rng1)
  else none

/-- Model of np.linalg.slogdet: the pair of the sign of the determinant
and the logarithm of its absolute value. -/
noncomputable def slogdet {n : ℕ} (M : Matrix (Fin n) (Fin n) ℝ) : ℝ × ℝ :=
  (if 0 < M.det then 1 else if M.det < 0 then -1 else 0, Real.log |M.det|)

/-- log_prior from functions.py lines 47-63: Mahalanobis term through
K_inverse, log-determinant of K recovered by negating the slogdet value
of K_inverse, Gaussian normalising constant. The sign returned by
slogdet is bound by the source but never checked. -/
noncomputable def log_prior {n : ℕ} (u : Fin n → ℝ)
    (K_inverse : Matrix (Fin n) (Fin n) ℝ) : ℝ :=
  let d : ℕ := n
  let mahalanobis := u ⬝ᵥ K_inverse.mulVec u
  let logdetK_inv := (slogdet K_inverse).2
  let logdetK := -logdetK_inv;
  -0.5 * mahalanobis - 0.5 * logdetK - 0.5 * d * Real.log (2 * Real.pi)

/-- log_continuous_likelihood from functions.py lines 65-80: squared
norm of the noise v - G u plus the Gaussian normalising constant. -/
noncomputable def log_continuous_likelihood {n m : ℕ} (u : Fin n → ℝ)
    (v : Fin m → ℝ) (G : Matrix (Fin m) (Fin n) ℝ) : ℝ :=
  let v_true := G.mulVec u
  let noise := v - v_true
  let mahalanobis := ∑ i, noise i ^ 2;
  -0.5 * mahalanobis - 0.5 * m * Real.log (2 * Real.pi)

/-- Model of the scipy norm.cdf function, the standard normal
distribution function. -/
noncomputable def norm_cdf (x : ℝ) : ℝ :=
  ∫ t in Set.Iic x, Real.exp (-(t ^ 2) / 2) / Real.sqrt (2 * Real.pi)

/-- log_probit_likelihood from functions.py lines 83-85: the body binds
phi = norm.cdf of G u and then executes a bare return, so the Python
function returns the value None, modelled by Option.none. -/
noncomputable def log_probit_likelihood {n m : ℕ} (u : Fin n → ℝ)
    (t : Fin m → ℝ) (G : Matrix (Fin m) (Fin n) ℝ) : Option ℝ :=
  let phi := fun i => norm_cdf (G.mulVec u i)
  none

/-- log_poisson_likelihood from functions.py lines 88-89: a bare return,
so the Python function returns the value None, modelled by Option.none. -/
def log_poisson_likelihood {n m : ℕ} (u : Fin n → ℝ) (c : Fin m → ℝ)
    (G : Matrix (Fin m) (Fin n) ℝ) : Option ℝ :=
  none

/-- log_continuous_target from functions.py lines 92-93. -/
noncomputable def log_continuous_target {n m : ℕ} (u : Fin n → ℝ)
    (y : Fin m → ℝ) (K_inverse : Matrix (Fin n) (Fin n) ℝ)
    (G : Matrix (Fin m) (Fin n) ℝ) : ℝ :=
  log_prior u K_inverse + log_continuous_likelihood u y G

/-- log_probit_target from functions.py lines 96-97: in Python the sum
of a float and None raises a generic TypeError, modelled by propagating
none. -/
noncomputable def log_probit_target {n m : ℕ} (u : Fin n → ℝ)
    (t : Fin m → ℝ) (K_inverse : Matrix (Fin n) (Fin n) ℝ)
    (G : Matrix (Fin m) (Fin n) ℝ) : Option ℝ :=
  (log_probit_likelihood u t G).map fun ll => log_prior u K_inverse + ll

/-- log_poisson_target from functions.py lines 100-101: in Python the
sum of a float and None raises a generic TypeError, modelled by
propagating none. -/
noncomputable def log_poisson_target {n m : ℕ} (u : Fin n → ℝ)
    (c : Fin m → ℝ) (K_inverse : Matrix (Fin n) (Fin n) ℝ)
    (G : Matrix (Fin m) (Fin n) ℝ) : Option ℝ :=
  (log_poisson_likelihood u c G).map fun ll => log_prior u K_inverse + ll

/-- Cholesky column construction in the Cholesky-Crout scheme: cholCols
A j holds the first j columns of the lower triangular factor of A, all
other entries 0. Together with cholesky below this models
np.linalg.cholesky, which is external library code; numpy raises
LinAlgError on an input that is not positive definite, a case no claim
exercises on an invalid matrix. -/
noncomputable def cholCols (A : ℕ → ℕ → ℝ) : ℕ → (ℕ → ℕ → ℝ)
  | 0 => fun _ _ => 0
  | j + 1 => fun i k =>
    let L := cholCols A j
    let diag := Real.sqrt (A j j - ∑ t ∈ Finset.range j, L j t ^ 2)
    if k < j then L i k
    else if k = j then
      (if i < j then 0
       else if i = j then diag
       else (A i j - ∑ t ∈ Finset.range j, L i t * L j t) / diag)
    else 0

/-- Model of np.linalg.cholesky for square real matrices. -/
noncomputable def cholesky {n : ℕ} (M : Matrix (Fin n) (Fin n) ℝ) :
    Matrix (Fin n) (Fin n) ℝ :=
  Matrix.of fun i j =>
    cholCols (fun a b => if h : a < n ∧ b < n then M ⟨a, h.1⟩ ⟨b, h.2⟩ else 0)
      n i j

/-- State threaded through the Metropolis-Hastings loops of grw and pcn:
the chain built so far, the accepted count, the current sample and the
cached log density value of the current sample. -/
structure MCState (n : ℕ) where
  X : List (Fin n → ℝ)
  acc : ℕ
  u_prev : Fin n → ℝ
  l_prev : ℝ

/-- Python true division of two machine integers, which raises
ZeroDivisionError on a zero divisor, modelled with none. -/
noncomputable def pyDivNat (a b : ℕ) : Option ℝ :=
  if b = 0 then none else some ((a : ℝ) / b)

/-- Body of one grw iteration, functions.py lines 133-152: z is the
standard normal draw and U the uniform draw of that iteration. -/
noncomputable def grwStep {n m : ℕ}
    (log_target : (Fin n → ℝ) → (Fin m → ℝ) → Matrix (Fin n) (Fin n) ℝ →
      Matrix (Fin m) (Fin n) ℝ → ℝ)
    (data : Fin m → ℝ) (K_inverse : Matrix (Fin n) (Fin n) ℝ)
    (G : Matrix (Fin m) (Fin n) ℝ) (beta : ℝ)
    (Kc : Matrix (Fin n) (Fin n) ℝ) (st : MCState n)
    (z : Fin n → ℝ) (U : ℝ) : MCState n :=
  let zeta := Kc.mulVec z
  let u_new := st.u_prev + beta • zeta
  let lt_new := log_target u_new data K_inverse G
  let log_alpha := lt_new - st.l_prev
  let log_u := Real.log U
  if log_alpha > log_u then
    ⟨st.X ++ [u_new], st.acc + 1, u_new, lt_new⟩
  else
    ⟨st.X ++ [st.u_prev], st.acc, st.u_prev, st.l_prev⟩

/-- Iteration loop of grw: running i iterations applies grwStep i times,
iteration i consuming position i of the draw stream. -/
noncomputable def grwLoop {n m : ℕ}
    (log_target : (Fin n → ℝ) → (Fin m → ℝ) → Matrix (Fin n) (Fin n) ℝ →
      Matrix (Fin m) (Fin n) ℝ → ℝ)
    (data : Fin m → ℝ) (K_inverse : Matrix (Fin n) (Fin n) ℝ)
    (G : Matrix (Fin m) (Fin n) ℝ) (beta : ℝ)
    (Kc : Matrix (Fin n) (Fin n) ℝ) (rnd : ℕ → (Fin n → ℝ) × ℝ) :
    ℕ → MCState n → MCState n
  | 0, st => st
  | i + 1, st =>
    grwStep log_target data K_inverse G beta Kc
      (grwLoop log_target data K_inverse G beta Kc rnd i st) (rnd i).1 (rnd i).2

/-- Setup and iteration loop of grw, functions.py lines 121-152: the
jittered Cholesky factor, the inverse of K through the inverse of the
factor, the cached initial log target value, then n_iters steps. -/
noncomputable def grwRun {n m : ℕ}
    (log_target : (Fin n → ℝ) → (Fin m → ℝ) → Matrix (Fin n) (Fin n) ℝ →
      Matrix (Fin m) (Fin n) ℝ → ℝ)
    (u0 : Fin n → ℝ) (data : Fin m → ℝ) (K : Matrix (Fin n) (Fin n) ℝ)
    (G : Matrix (Fin m) (Fin n) ℝ) (n_iters : ℕ) (beta : ℝ)
    (rnd : ℕ → (Fin n → ℝ) × ℝ) : MCState n :=
  let Kc := cholesky (K + (1e-6 : ℝ) • 1)
  let Kc_inverse := Kc⁻¹
  let K_inverse := Kc_inverseᵀ * Kc_inverse
  let lt_prev := log_target u0 data K_inverse G
  grwLoop log_target data K_inverse G beta Kc rnd n_iters ⟨[], 0, u0, lt_prev⟩

/-- grw from functions.py lines 106-154: the chain and the ratio of
accepted samples, the final Python division acc / n_iters modelled by
pyDivNat. -/
noncomputable def grw {n m : ℕ}
    (log_target : (Fin n → ℝ) → (Fin m → ℝ) → Matrix (Fin n) (Fin n) ℝ →
      Matrix (Fin m) (Fin n) ℝ → ℝ)
    (u0 : Fin n → ℝ) (data : Fin m → ℝ) (K : Matrix (Fin n) (Fin n) ℝ)
    (G : Matrix (Fin m) (Fin n) ℝ) (n_iters : ℕ) (beta : ℝ)
    (rnd : ℕ → (Fin n → ℝ) × ℝ) : Option (List (Fin n → ℝ) × ℝ) :=
  let final := grwRun log_target u0 data K G n_iters beta rnd
  (pyDivNat final.acc n_iters).map fun r => (final.X, r)

/-- Body of one pcn iteration, functions.py lines 183-201: z is the
standard normal draw and U the uniform draw of that iteration. -/
noncomputable def pcnStep {n m : ℕ}
    (log_likelihood : (Fin n → ℝ) → (Fin m → ℝ) →
      Matrix (Fin m) (Fin n) ℝ → ℝ)
    (y : Fin m → ℝ) (G : Matrix (Fin m) (Fin n) ℝ) (beta : ℝ)
    (Kc : Matrix (Fin n) (Fin n) ℝ) (st : MCState n)
    (z : Fin n → ℝ) (U : ℝ) : MCState n :=
  let zeta := Kc.mulVec z
  let u_new := Real.sqrt (1 - beta ^ 2) • st.u_prev + beta • zeta
  let ll_new := log_likelihood u_new y G
  let log_alpha := ll_new - st.l_prev
  let log_u := Real.log U
  if log_alpha > log_u then
    ⟨st.X ++ [u_new], st.acc + 1, u_new, ll_new⟩
  else
    ⟨st.X ++ [st.u_prev], st.acc, st.u_prev, st.l_prev⟩

/-- Iteration loop of pcn: running i iterations applies pcnStep i times,
iteration i consuming position i of the draw stream. -/
noncomputable def pcnLoop {n m : ℕ}
    (log_likelihood : (Fin n → ℝ) → (Fin m → ℝ) →
      Matrix (Fin m) (Fin n) ℝ → ℝ)
    (y : Fin m → ℝ) (G : Matrix (Fin m) (Fin n) ℝ) (beta : ℝ)
    (Kc : Matrix (Fin n) (Fin n) ℝ) (rnd : ℕ → (Fin n → ℝ) × ℝ) :
    ℕ → MCState n → MCState n
  | 0, st => st
  | i + 1, st =>
    pcnStep log_likelihood y G beta Kc
      (pcnLoop log_likelihood y G beta Kc rnd i st) (rnd i).1 (rnd i).2

/-- Setup and iteration loop of pcn, functions.py lines 171-201. The
inverse of K is computed before the loop exactly as in grw but the loop
itself only uses the likelihood, never the prior. -/
noncomputable def pcnRun {n m : ℕ}
    (log_likelihood : (Fin n → ℝ) → (Fin m → ℝ) →
      Matrix (Fin m) (Fin n) ℝ → ℝ)
    (u0 : Fin n → ℝ) (y : Fin m → ℝ) (K : Matrix (Fin n) (Fin n) ℝ)
    (G : Matrix (Fin m) (Fin n) ℝ) (n_iters : ℕ) (beta : ℝ)
    (rnd : ℕ → (Fin n → ℝ) × ℝ) : MCState n :=
  let Kc := cholesky (K + (1e-6 : ℝ) • 1)
  let Kc_inverse := Kc⁻¹
  let K_inverse := Kc_inverseᵀ * Kc_inverse
  let ll_prev := log_likelihood u0 y G
  pcnLoop log_likelihood y G beta Kc rnd n_iters ⟨[], 0, u0, ll_prev⟩

/-- pcn from functions.py lines 157-203: the chain and the ratio of
accepted samples, the final Python division acc / n_iters modelled by
pyDivNat. -/
noncomputable def pcn {n m : ℕ}
    (log_likelihood : (Fin n → ℝ) → (Fin m → ℝ) →
      Matrix (Fin m) (Fin n) ℝ → ℝ)
    (u0 : Fin n → ℝ) (y : Fin m → ℝ) (K : Matrix (Fin n) (Fin n) ℝ)
    (G : Matrix (Fin m) (Fin n) ℝ) (n_iters : ℕ) (beta : ℝ)
    (rnd : ℕ → (Fin n → ℝ) × ℝ) : Option (List (Fin n → ℝ) × ℝ) :=
  let final := pcnRun log_likelihood u0 y K G n_iters beta rnd
  (pyDivNat final.acc n_iters).map fun r => (final.X, r)

/-- Shorthand: the zero vector of length one, used as a concrete input
in witnesses. -/
def u1 : Fin 1 → ℝ := 0

/-- Shorthand: a constant-zero log target on one-dimensional states and
data. -/
def lt0 : (Fin 1 → ℝ) → (Fin 1 → ℝ) → Matrix (Fin 1) (Fin 1) ℝ →
    Matrix (Fin 1) (Fin 1) ℝ → ℝ :=
  fun _ _ _ _ => 0

/-- Shorthand: a constant-zero log likelihood on one-dimensional states
and data. -/
def ll0 : (Fin 1 → ℝ) → (Fin 1 → ℝ) → Matrix (Fin 1) (Fin 1) ℝ → ℝ :=
  fun _ _ _ => 0

/-- Shorthand: a concrete draw stream whose normal draw is the zero
vector and whose uniform draw is 1 at every iteration. -/
noncomputable def rnd1 : ℕ → (Fin 1 → ℝ) × ℝ :=
  fun _ => (0, 1)

theorem grwStep_X_length {n m : ℕ}
    (log_target : (Fin n → ℝ) → (Fin m → ℝ) → Matrix (Fin n) (Fin n) ℝ →
      Matrix (Fin m) (Fin n) ℝ → ℝ)
    (data : Fin m → ℝ) (K_inverse : Matrix (Fin n) (Fin n) ℝ)
    (G : Matrix (Fin m) (Fin n) ℝ) (beta : ℝ)
    (Kc : Matrix (Fin n) (Fin n) ℝ) (st : MCState n)
    (z : Fin n → ℝ) (U : ℝ) :
    (grwStep log_target data K_inverse G beta Kc st z U).X.length =
      st.X.length + 1 := by
  unfold grwStep
  dsimp only
  split <;> simp

theorem grwStep_acc {n m : ℕ}
    (log_target : (Fin n → ℝ) → (Fin m → ℝ) → Matrix (Fin n) (Fin n) ℝ →
      Matrix (Fin m) (Fin n) ℝ → ℝ)
    (data : Fin m → ℝ) (K_inverse : Matrix (Fin n) (Fin n) ℝ)
    (G : Matrix (Fin m) (Fin n) ℝ) (beta : ℝ)
    (Kc : Matrix (Fin n) (Fin n) ℝ) (st : MCState n)
    (z : Fin n → ℝ) (U : ℝ) :
    st.acc ≤ (grwStep log_target data K_inverse G beta Kc st z U).acc ∧
      (grwStep log_target data K_inverse G beta Kc st z U).acc ≤ st.acc + 1 := by
  unfold grwStep
  dsimp only
  split <;> simp

theorem grwLoop_X_length {n m : ℕ}
    (log_target : (Fin n → ℝ) → (Fin m → ℝ) → Matrix (Fin n) (Fin n) ℝ →
      Matrix (Fin m) (Fin n) ℝ → ℝ)
    (data : Fin m → ℝ) (K_inverse : Matrix (Fin n) (Fin n) ℝ)
    (G : Matrix (Fin m) (Fin n) ℝ) (beta : ℝ)
    (Kc : Matrix (Fin n) (Fin n) ℝ) (rnd : ℕ → (Fin n → ℝ) × ℝ) :
    ∀ (i : ℕ) (st : MCState n),
      (grwLoop log_target data K_inverse G beta Kc rnd i st).X.length =
        st.X.length + i := by
  intro i
  induction i with
  | zero => intro st; rfl
  | succ i ih =>
    intro st
    simp only [grwLoop]
    rw [grwStep_X_length, ih]
    omega

theorem grwLoop_acc {n m : ℕ}
    (log_target : (Fin n → ℝ) → (Fin m → ℝ) → Matrix (Fin n) (Fin n) ℝ →
      Matrix (Fin m) (Fin n) ℝ → ℝ)
    (data : Fin m → ℝ) (K_inverse : Matrix (Fin n) (Fin n) ℝ)
    (G : Matrix (Fin m) (Fin n) ℝ) (beta : ℝ)
    (Kc : Matrix (Fin n) (Fin n) ℝ) (rnd : ℕ → (Fin n → ℝ) × ℝ) :
    ∀ (i : ℕ) (st : MCState n),
      (grwLoop log_target data K_inverse G beta Kc rnd i st).acc ≤
        st.acc + i := by
  intro i
  induction i with
  | zero => intro st; exact Nat.le_refl _
  | succ i ih =>
    intro st
    simp only [grwLoop]
    have h := (grwStep_acc log_target data K_inverse G beta Kc
      (grwLoop log_target data K_inverse G beta Kc rnd i st) (rnd i).1
      (rnd i).2).2
    have h2 := ih st
    omega

theorem grwRun_X_length {n m : ℕ}
    (log_target : (Fin n → ℝ) → (Fin m → ℝ) → Matrix (Fin n) (Fin n) ℝ →
      Matrix (Fin m) (Fin n) ℝ → ℝ)
    (u0 : Fin n → ℝ) (data : Fin m → ℝ) (K : Matrix (Fin n) (Fin n) ℝ)
    (G : Matrix (Fin m) (Fin n) ℝ) (n_iters : ℕ) (beta : ℝ)
    (rnd : ℕ → (Fin n → ℝ) × ℝ) :
    (grwRun log_target u0 data K G n_iters beta rnd).X.length = n_iters := by
  simp only [grwRun]
  rw [grwLoop_X_length]
  simp

theorem grwRun_acc_le {n m : ℕ}
    (log_target : (Fin n → ℝ) → (Fin m → ℝ) → Matrix (Fin n) (Fin n) ℝ →
      Matrix (Fin m) (Fin n) ℝ → ℝ)
    (u0 : Fin n → ℝ) (data : Fin m → ℝ) (K : Matrix (Fin n) (Fin n) ℝ)
    (G : Matrix (Fin m) (Fin n) ℝ) (n_iters : ℕ) (beta : ℝ)
    (rnd : ℕ → (Fin n → ℝ) × ℝ) :
    (grwRun log_target u0 data K G n_iters beta rnd).acc ≤ n_iters := by
  simp only [grwRun]
  have h := grwLoop_acc log_target data
    ((cholesky (K + (1e-6 : ℝ) • 1))⁻¹ᵀ * (cholesky (K + (1e-6 : ℝ) • 1))⁻¹) G
    beta (cholesky (K + (1e-6 : ℝ) • 1)) rnd n_iters
    ⟨[], 0, u0, log_target u0 data
      ((cholesky (K + (1e-6 : ℝ) • 1))⁻¹ᵀ * (cholesky (K + (1e-6 : ℝ) • 1))⁻¹) G⟩
  simpa using h

theorem pcnStep_X_length {n m : ℕ}
    (log_likelihood : (Fin n → ℝ) → (Fin m → ℝ) →
      Matrix (Fin m) (Fin n) ℝ → ℝ)
    (y : Fin m → ℝ) (G : Matrix (Fin m) (Fin n) ℝ) (beta : ℝ)
    (Kc : Matrix (Fin n) (Fin n) ℝ) (st : MCState n)
    (z : Fin n → ℝ) (U : ℝ) :
    (pcnStep log_likelihood y G beta Kc st z U).X.length = st.X.length + 1 := by
  unfold pcnStep
  dsimp only
  split <;> simp

theorem pcnStep_acc {n m : ℕ}
    (log_likelihood : (Fin n → ℝ) → (Fin m → ℝ) →
      Matrix (Fin m) (Fin n) ℝ → ℝ)
    (y : Fin m → ℝ) (G : Matrix (Fin m) (Fin n) ℝ) (beta : ℝ)
    (Kc : Matrix (Fin n) (Fin n) ℝ) (st : MCState n)
    (z : Fin n → ℝ) (U : ℝ) :
    st.acc ≤ (pcnStep log_likelihood y G beta Kc st z U).acc ∧
      (pcnStep log_likelihood y G beta Kc st z U).acc ≤ st.acc + 1 := by
  unfold pcnStep
  dsimp only
  split <;> simp

theorem pcnLoop_X_length {n m : ℕ}
    (log_likelihood : (Fin n → ℝ) → (Fin m → ℝ) →
      Matrix (Fin m) (Fin n) ℝ → ℝ)
    (y : Fin m → ℝ) (G : Matrix (Fin m) (Fin n) ℝ) (beta : ℝ)
    (Kc : Matrix (Fin n) (Fin n) ℝ) (rnd : ℕ → (Fin n → ℝ) × ℝ) :
    ∀ (i : ℕ) (st : MCState n),
      (pcnLoop log_likelihood y G beta Kc rnd i st).X.length =
        st.X.length + i := by
  intro i
  induction i with
  | zero => intro st; rfl
  | succ i ih =>
    intro st
    simp only [pcnLoop]
    rw [pcnStep_X_length, ih]
    omega

theorem pcnLoop_acc {n m : ℕ}
    (log_likelihood : (Fin n → ℝ) → (Fin m → ℝ) →
      Matrix (Fin m) (Fin n) ℝ → ℝ)
    (y : Fin m → ℝ) (G : Matrix (Fin m) (Fin n) ℝ) (beta : ℝ)
    (Kc : Matrix (Fin n) (Fin n) ℝ) (rnd : ℕ → (Fin n → ℝ) × ℝ) :
    ∀ (i : ℕ) (st : MCState n),
      (pcnLoop log_likelihood y G beta Kc rnd i st).acc ≤ st.acc + i := by
  intro i
  induction i with
  | zero => intro st; exact Nat.le_refl _
  | succ i ih =>
    intro st
    simp only [pcnLoop]
    have h := (pcnStep_acc log_likelihood y G beta Kc
      (pcnLoop log_likelihood y G beta Kc rnd i st) (rnd i).1 (rnd i).2).2
    have h2 := ih st
    omega

theorem pcnRun_X_length {n m : ℕ}
    (log_likelihood : (Fin n → ℝ) → (Fin m → ℝ) →
      Matrix (Fin m) (Fin n) ℝ → ℝ)
    (u0 : Fin n → ℝ) (y : Fin m → ℝ) (K : Matrix (Fin n) (Fin n) ℝ)
    (G : Matrix (Fin m) (Fin n) ℝ) (n_iters : ℕ) (beta : ℝ)
    (rnd : ℕ → (Fin n → ℝ) × ℝ) :
    (pcnRun log_likelihood u0 y K G n_iters beta rnd).X.length = n_iters := by
  simp only [pcnRun]
  rw [pcnLoop_X_length]
  simp

theorem pcnRun_acc_le {n m : ℕ}
    (log_likelihood : (Fin n → ℝ) → (Fin m → ℝ) →
      Matrix (Fin m) (Fin n) ℝ → ℝ)
    (u0 : Fin n → ℝ) (y : Fin m → ℝ) (K : Matrix (Fin n) (Fin n) ℝ)
    (G : Matrix (Fin m) (Fin n) ℝ) (n_iters : ℕ) (beta : ℝ)
    (rnd : ℕ → (Fin n → ℝ) × ℝ) :
    (pcnRun log_likelihood u0 y K G n_iters beta rnd).acc ≤ n_iters := by
  simp only [pcnRun]
  have h := pcnLoop_acc log_likelihood y G beta
    (cholesky (K + (1e-6 : ℝ) • 1)) rnd n_iters
    ⟨[], 0, u0, log_likelihood u0 y G⟩
  simpa using h

/-- C1: for every initial state, data, prior covariance, observation
matrix, iteration count at least 1 and step size in the open interval
from 0 to 1, iteration i of pcn proposes
u_new = sqrt (1 - beta^2) * u_prev + beta * zeta with zeta = Kc z, where
Kc is the Cholesky factor of K plus jitter and z is the normal draw of
that iteration, and accepts exactly when the log of the uniform draw is
below ll_new - ll_prev. The acceptance condition is the log-likelihood
difference alone; the prior log density does not occur in it (pcn never
calls log_prior and its loop state carries only likelihood values). -/
theorem pcn_iteration_rule {n m : ℕ}
    (log_likelihood : (Fin n → ℝ) → (Fin m → ℝ) →
      Matrix (Fin m) (Fin n) ℝ → ℝ)
    (u0 : Fin n → ℝ) (y : Fin m → ℝ) (K : Matrix (Fin n) (Fin n) ℝ)
    (G : Matrix (Fin m) (Fin n) ℝ) (n_iters : ℕ) (beta : ℝ)
    (rnd : ℕ → (Fin n → ℝ) × ℝ) (i : ℕ)
    (hn : 1 ≤ n_iters) (hi : i < n_iters) (hb0 : 0 < beta) (hb1 : beta < 1) :
    pcnLoop log_likelihood y G beta (cholesky (K + (1e-6 : ℝ) • 1)) rnd (i + 1)
        ⟨[], 0, u0, log_likelihood u0 y G⟩ =
      let Kc := cholesky (K + (1e-6 : ℝ) • 1)
      let st := pcnLoop log_likelihood y G beta Kc rnd i
        ⟨[], 0, u0, log_likelihood u0 y G⟩
      let z := (rnd i).1
      let U := (rnd i).2
      let zeta := Kc.mulVec z
      let u_new := Real.sqrt (1 - beta ^ 2) • st.u_prev + beta • zeta
      let ll_new := log_likelihood u_new y G
      if Real.log U < ll_new - st.l_prev then
        ⟨st.X ++ [u_new], st.acc + 1, u_new, ll_new⟩
      else
        ⟨st.X ++ [st.u_prev], st.acc, st.u_prev, st.l_prev⟩ := rfl

/-- Witness for pcn_iteration_rule: at the concrete one-dimensional
input with constant-zero likelihood, zero normal draws and uniform draw
1, the single pcn iteration rejects and repeats the initial state. -/
theorem pcn_iteration_rule_witness :
    pcnLoop ll0 u1 0 (1 / 2)
        (cholesky ((0 : Matrix (Fin 1) (Fin 1) ℝ) + (1e-6 : ℝ) • 1)) rnd1 1
        ⟨[], 0, u1, ll0 u1 u1 0⟩ =
      ⟨[u1], 0, u1, ll0 u1 u1 0⟩ := by
  have h := pcn_iteration_rule ll0 u1 u1 0 0 1 (1 / 2) rnd1 0 le_rfl
    (by norm_num) (by norm_num) (by norm_num)
  refine h.trans ?_
  simp [ll0, rnd1, pcnLoop]

/-- C2: for every initial state, data, prior covariance, observation
matrix, iteration count at least 1 and positive step size, iteration i
of grw draws zeta = Kc z from the normal draw z of that iteration,
proposes u_new = u_prev + beta * zeta, evaluates the log target at u_new
with the precomputed K_inverse, and accepts exactly when the log of the
uniform draw is below lt_new - lt_prev; on accept it appends u_new,
advances u_prev and lt_prev and increments the accepted count, on reject
it appends u_prev unchanged. -/
theorem grw_iteration_rule {n m : ℕ}
    (log_target : (Fin n → ℝ) → (Fin m → ℝ) → Matrix (Fin n) (Fin n) ℝ →
      Matrix (Fin m) (Fin n) ℝ → ℝ)
    (u0 : Fin n → ℝ) (data : Fin m → ℝ) (K : Matrix (Fin n) (Fin n) ℝ)
    (G : Matrix (Fin m) (Fin n) ℝ) (n_iters : ℕ) (beta : ℝ)
    (rnd : ℕ → (Fin n → ℝ) × ℝ) (i : ℕ)
    (Kc K_inverse : Matrix (Fin n) (Fin n) ℝ)
    (hn : 1 ≤ n_iters) (hi : i < n_iters) (hb : 0 < beta)
    (hKc : Kc = cholesky (K + (1e-6 : ℝ) • 1))
    (hKI : K_inverse = (Kc⁻¹)ᵀ * Kc⁻¹) :
    grwLoop log_target data K_inverse G beta Kc rnd (i + 1)
        ⟨[], 0, u0, log_target u0 data K_inverse G⟩ =
      let st := grwLoop log_target data K_inverse G beta Kc rnd i
        ⟨[], 0, u0, log_target u0 data K_inverse G⟩
      let z := (rnd i).1
      let U := (rnd i).2
      let zeta := Kc.mulVec z
      let u_new := st.u_prev + beta • zeta
      let lt_new := log_target u_new data K_inverse G
      if Real.log U < lt_new - st.l_prev then
        ⟨st.X ++ [u_new], st.acc + 1, u_new, lt_new⟩
      else
        ⟨st.X ++ [st.u_prev], st.acc, st.u_prev, st.l_prev⟩ := by
  subst hKI hKc
  rfl

/-- Witness for grw_iteration_rule: at the concrete one-dimensional
input with constant-zero target, zero normal draws and uniform draw 1,
the single grw iteration rejects and repeats the initial state. -/
theorem grw_iteration_rule_witness :
    grwLoop lt0 u1
        (((cholesky ((0 : Matrix (Fin 1) (Fin 1) ℝ) + (1e-6 : ℝ) • 1))⁻¹)ᵀ *
          (cholesky ((0 : Matrix (Fin 1) (Fin 1) ℝ) + (1e-6 : ℝ) • 1))⁻¹) 0 1
        (cholesky ((0 : Matrix (Fin 1) (Fin 1) ℝ) + (1e-6 : ℝ) • 1)) rnd1 1
        ⟨[], 0, u1, 0⟩ =
      ⟨[u1], 0, u1, 0⟩ := by
  have h := grw_iteration_rule lt0 u1 u1 0 0 1 1 rnd1 0
    (cholesky ((0 : Matrix (Fin 1) (Fin 1) ℝ) + (1e-6 : ℝ) • 1))
    (((cholesky ((0 : Matrix (Fin 1) (Fin 1) ℝ) + (1e-6 : ℝ) • 1))⁻¹)ᵀ *
      (cholesky ((0 : Matrix (Fin 1) (Fin 1) ℝ) + (1e-6 : ℝ) • 1))⁻¹)
    le_rfl (by norm_num) (by norm_num) rfl rfl
  simp only [lt0] at h
  refine h.trans ?_
  simp [lt0, rnd1, grwLoop]

/-- C3: for every iteration count at least 1, grw and pcn both return
normally with a chain of length exactly n_iters and an acceptance rate
equal to the accepted count divided by n_iters, a value lying in the
closed interval from 0 to 1. -/
theorem chain_length_and_acceptance_rate {n m : ℕ}
    (log_target : (Fin n → ℝ) → (Fin m → ℝ) → Matrix (Fin n) (Fin n) ℝ →
      Matrix (Fin m) (Fin n) ℝ → ℝ)
    (log_likelihood : (Fin n → ℝ) → (Fin m → ℝ) →
      Matrix (Fin m) (Fin n) ℝ → ℝ)
    (u0 : Fin n → ℝ) (data y : Fin m → ℝ) (K : Matrix (Fin n) (Fin n) ℝ)
    (G : Matrix (Fin m) (Fin n) ℝ) (n_iters : ℕ) (beta_g beta_p : ℝ)
    (rnd_g rnd_p : ℕ → (Fin n → ℝ) × ℝ) (hn : 1 ≤ n_iters) :
    (grw log_target u0 data K G n_iters beta_g rnd_g =
      some ((grwRun log_target u0 data K G n_iters beta_g rnd_g).X,
        ((grwRun log_target u0 data K G n_iters beta_g rnd_g).acc : ℝ) /
          n_iters) ∧
      (grwRun log_target u0 data K G n_iters beta_g rnd_g).X.length =
        n_iters ∧
      0 ≤ ((grwRun log_target u0 data K G n_iters beta_g rnd_g).acc : ℝ) /
        n_iters ∧
      ((grwRun log_target u0 data K G n_iters beta_g rnd_g).acc : ℝ) /
        n_iters ≤ 1) ∧
    (pcn log_likelihood u0 y K G n_iters beta_p rnd_p =
      some ((pcnRun log_likelihood u0 y K G n_iters beta_p rnd_p).X,
        ((pcnRun log_likelihood u0 y K G n_iters beta_p rnd_p).acc : ℝ) /
          n_iters) ∧
      (pcnRun log_likelihood u0 y K G n_iters beta_p rnd_p).X.length =
        n_iters ∧
      0 ≤ ((pcnRun log_likelihood u0 y K G n_iters beta_p rnd_p).acc : ℝ) /
        n_iters ∧
      ((pcnRun log_likelihood u0 y K G n_iters beta_p rnd_p).acc : ℝ) /
        n_iters ≤ 1) := by
  have hn0 : n_iters ≠ 0 := by omega
  have hpos : (0 : ℝ) < n_iters := by
    exact_mod_cast Nat.pos_of_ne_zero hn0
  refine ⟨⟨?_, grwRun_X_length _ _ _ _ _ _ _ _, ?_, ?_⟩,
    ⟨?_, pcnRun_X_length _ _ _ _ _ _ _ _, ?_, ?_⟩⟩
  · simp [grw, pyDivNat, hn0]
  · positivity
  · exact div_le_one_of_le₀
      (by exact_mod_cast grwRun_acc_le log_target u0 data K G n_iters beta_g rnd_g)
      (le_of_lt hpos)
  · simp [pcn, pyDivNat, hn0]
  · positivity
  · exact div_le_one_of_le₀
      (by exact_mod_cast pcnRun_acc_le log_likelihood u0 y K G n_iters beta_p rnd_p)
      (le_of_lt hpos)

/-- Witness for chain_length_and_acceptance_rate: one iteration of grw
and of pcn on a concrete one-dimensional input produces chains of length
one. -/
theorem chain_length_and_acceptance_rate_witness :
    (grwRun lt0 u1 u1 0 0 1 1 rnd1).X.length = 1 ∧
      (pcnRun ll0 u1 u1 0 0 1 (1 / 2) rnd1).X.length = 1 := by
  have h := chain_length_and_acceptance_rate lt0 ll0 u1 u1 u1 0 0 1 1 (1 / 2)
    rnd1 rnd1 le_rfl
  exact ⟨h.1.2.1, h.2.2.1⟩

/-- C4: the probit and Poisson likelihood placeholders silently return
the Python value None on every call instead of raising an explicit
not-implemented signal, and the corresponding targets therefore also
fail to produce a value (in Python the sum of a float and None raises a
generic TypeError). -/
theorem unimplemented_likelihoods_return_none {n m : ℕ} (u : Fin n → ℝ)
    (t c : Fin m → ℝ) (K_inverse : Matrix (Fin n) (Fin n) ℝ)
    (G : Matrix (Fin m) (Fin n) ℝ) :
    log_probit_likelihood u t G = none ∧
      log_poisson_likelihood u c G = none ∧
      log_probit_target u t K_inverse G = none ∧
      log_poisson_target u c K_inverse G = none :=
  ⟨rfl, rfl, rfl, rfl⟩

/-- C5: pcn performs no validation of the step size: with beta = 2,
which lies outside the open interval from 0 to 1, it still runs all
iterations and returns a chain of full length instead of raising a
configuration error at call time. -/
theorem pcn_runs_despite_invalid_beta :
    ∃ X r, pcn ll0 u1 u1 0 0 2 2 rnd1 = some (X, r) ∧ X.length = 2 := by
  refine ⟨(pcnRun ll0 u1 u1 0 0 2 2 rnd1).X,
    ((pcnRun ll0 u1 u1 0 0 2 2 rnd1).acc : ℝ) / 2, ?_,
    pcnRun_X_length _ _ _ _ _ _ _ _⟩
  simp [pcn, pyDivNat]

/-- C6: log_prior returns minus half the Mahalanobis term through
K_inverse, minus half the log determinant of K obtained by negating the
slogdet log-absolute-determinant of K_inverse, minus d over 2 times the
log of 2 pi, where d is the length of u. -/
theorem log_prior_formula {n : ℕ} (u : Fin n → ℝ)
    (K_inverse : Matrix (Fin n) (Fin n) ℝ) :
    log_prior u K_inverse =
      -(1 / 2) * (u ⬝ᵥ K_inverse.mulVec u) -
        (1 / 2) * (-Real.log |K_inverse.det|) -
        ((n : ℝ) / 2) * Real.log (2 * Real.pi) := by
  simp only [log_prior, slogdet]
  ring_nf

/-- C7: the slogdet sign is computed but never checked by log_prior: on
the concrete matrix with the single entry -1, whose determinant is
negative so the sign is -1 and the matrix is not a valid precision
matrix, log_prior silently returns the finite value
-(1/2) log (2 pi) instead of reporting a numerical error. -/
theorem log_prior_ignores_invalid_sign :
    Matrix.det !![(-1 : ℝ)] < 0 ∧
      (slogdet !![(-1 : ℝ)]).1 = -1 ∧
      log_prior (0 : Fin 1 → ℝ) !![(-1 : ℝ)] =
        -(1 / 2) * Real.log (2 * Real.pi) := by
  refine ⟨by simp [Matrix.det_fin_one], ?_, ?_⟩
  · simp [slogdet, Matrix.det_fin_one]
  · simp [log_prior, slogdet, Matrix.det_fin_one]
    norm_num

/-- C8: for every coordinate set and positive length scale, the
Gaussian kernel matrix has entries exp of minus the squared Euclidean
distance over 2 l^2, is symmetric, and has unit diagonal. -/
theorem gaussian_kernel_spec {m d : ℕ} (x : Fin m → Fin d → ℝ) (l : ℝ)
    (hl : 0 < l) :
    (∀ i j, GaussianKernel x l i j =
      Real.exp (-(Real.sqrt (∑ k, (x i k - x j k) ^ 2) ^ 2) / (2 * l ^ 2))) ∧
      (∀ i j, GaussianKernel x l i j = GaussianKernel x l j i) ∧
      (∀ i, GaussianKernel x l i i = 1) := by
  refine ⟨fun i j => rfl, fun i j => ?_, fun i => ?_⟩
  · have hsum : ∑ k, (x i k - x j k) ^ 2 = ∑ k, (x j k - x i k) ^ 2 :=
      Finset.sum_congr rfl fun k _ => by ring
    simp [GaussianKernel, distanceMatrix, hsum]
  · simp [GaussianKernel, distanceMatrix, sub_self]

/-- Witness for gaussian_kernel_spec: on a concrete two-point coordinate
set with length scale 1, the diagonal entry at index 0 is 1. -/
theorem gaussian_kernel_spec_witness :
    GaussianKernel ![![(0 : ℝ), 0], ![1, 0]] 1 0 0 = 1 :=
  (gaussian_kernel_spec ![![(0 : ℝ), 0], ![1, 0]] 1 (by norm_num)).2.2 0

/-- C9: with n_iters = 0 neither sampler validates the iteration count:
the loop body runs zero times, the chain built by the loop is empty, and
the final Python division acc / n_iters raises ZeroDivisionError,
modelled by both samplers returning none rather than a chain with a
default rate. -/
theorem zero_iters_division_error {n m : ℕ}
    (log_target : (Fin n → ℝ) → (Fin m → ℝ) → Matrix (Fin n) (Fin n) ℝ →
      Matrix (Fin m) (Fin n) ℝ → ℝ)
    (log_likelihood : (Fin n → ℝ) → (Fin m → ℝ) →
      Matrix (Fin m) (Fin n) ℝ → ℝ)
    (u0 : Fin n → ℝ) (data y : Fin m → ℝ) (K : Matrix (Fin n) (Fin n) ℝ)
    (G : Matrix (Fin m) (Fin n) ℝ) (beta_g beta_p : ℝ)
    (rnd_g rnd_p : ℕ → (Fin n → ℝ) × ℝ) :
    grw log_target u0 data K G 0 beta_g rnd_g = none ∧
      pcn log_likelihood u0 y K G 0 beta_p rnd_p = none ∧
      (grwRun log_target u0 data K G 0 beta_g rnd_g).X = [] ∧
      (pcnRun log_likelihood u0 y K G 0 beta_p rnd_p).X = [] := by
  refine ⟨?_, ?_, rfl, rfl⟩ <;> simp [grw, pcn, pyDivNat]

/-- C10: subsample reseeds the generator exactly when the seed argument
is truthy: for every nonzero seed the result is independent of the
incoming generator state, so two calls with the same nonzero seed agree;
with seed 0 the call behaves exactly like a call with no seed at all,
the seed being silently ignored. -/
theorem subsample_seed_truthiness :
    (∀ (N factor : ℕ) (s : ℤ) (rng1 rng2 : ℕ), s ≠ 0 →
      subsample N factor (some s) rng1 = subsample N factor (some s) rng2) ∧
      (∀ (N factor : ℕ) (rng : ℕ),
        subsample N factor (some 0) rng = subsample N factor none rng) := by
  constructor
  · intro N f s r1 r2 hs
    simp [subsample, hs]
  · intro N f r
    simp [subsample]

/-- Witness for subsample_seed_truthiness: with the nonzero seed 5 two
calls from different generator states agree. -/
theorem subsample_seed_truthiness_witness :
    subsample 10 2 (some 5) 0 = subsample 10 2 (some 5) 999 :=
  subsample_seed_truthiness.1 10 2 5 0 999 (by decide)
